import Mathlib

/-!
Verification of the environment core (`library/init/lean/environment.lean`):
the immutable declaration index, the extension-state mechanism, persistent
extensions with incremental fold state, and the module importer.

The C++/IO collaborators (name type, staged map, hash map, module file
resolution and deserialization, legacy modification replay) are not part of
the verified source; they are modelled from the specification and marked as
such.  Type-erased extension slots (`EnvExtensionState`, cast via C-style
`void *`) are embedded monomorphically: the whole development is
parameterized by the extension state type, and the casts (identities under
the slot-typing invariant) disappear.
-/

namespace LeanEnv

/-- Modelled from the spec: qualified names (`init.lean.name` is not part of
the verified source).  Only decidable equality of names is relevant here, so
names are represented as strings. -/
abbrev Name := String

/-- Modelled from the spec: a declaration record is opaque to this core
beyond exposing a name; the `payload` field stands for the rest of the
record and makes distinct declarations distinguishable. -/
structure ConstantInfo where
  name : Name
  payload : Nat := 0
deriving DecidableEq

def ModuleIdx := Nat

/-- Modelled from the spec: association-entry insertion used by both map
models; replaces the value at the first occurrence of the key, otherwise
appends at the end. -/
def insertList {α β : Type} [BEq α] : List (α × β) → α → β → List (α × β)
  | [], k, v => [(k, v)]
  | (k', v') :: rest, k, v =>
      if k' == k then (k, v) :: rest else (k', v') :: insertList rest k v

/-- Modelled from the spec: association-entry lookup shared by both map
models. -/
def findList {α β : Type} [BEq α] : List (α × β) → α → Option β
  | [], _ => none
  | (k', v') :: rest, k => if k' == k then some v' else findList rest k

/-- Modelled from the spec: the chained open-hash map used for
`const2ModIdx` (its implementation is not part of the verified source),
reduced to its association semantics. -/
def HashMap (α β : Type) : Type := List (α × β)

def HashMap.empty {α β : Type} : HashMap α β := []

def HashMap.insert {α β : Type} [BEq α] (m : HashMap α β) (k : α) (v : β) : HashMap α β :=
  insertList m k v

def HashMap.find {α β : Type} [BEq α] (m : HashMap α β) (k : α) : Option β :=
  findList m k

/-- Modelled from the spec: the staged map (`init.lean.smap` is not part of
the verified source).  Stage 1 is the persistent tree-backed store, stage 2
the hash-backed store; both are reduced to their association semantics.
Insertion goes to whichever representation is active; after `switch` the
lookup tries the hash store first and falls back to the tree store for
pre-switch entries. -/
structure SMap (α β : Type) where
  stage1 : Bool := true
  map1 : List (α × β) := []
  map2 : List (α × β) := []

def SMap.empty {α β : Type} : SMap α β := {}

def SMap.insert {α β : Type} [BEq α] (m : SMap α β) (k : α) (v : β) : SMap α β :=
  if m.stage1 then
    { m with map1 := insertList m.map1 k v }
  else
    { m with map2 := insertList m.map2 k v }

def SMap.find {α β : Type} [BEq α] (m : SMap α β) (k : α) : Option β :=
  if m.stage1 then
    findList m.map1 k
  else
    match findList m.map2 k with
    | some v => some v
    | none => findList m.map1 k

/-- One-directional switch from the tree-backed stage to the hash-backed
stage; pre-switch entries stay in the tree store and remain reachable
through the lookup fallback. -/
def SMap.switch {α β : Type} (m : SMap α β) : SMap α β :=
  { m with stage1 := false }

/-- The core immutable environment value (source structure `Environment`),
with the type-erased `extensions` array carried at a type parameter `ε`. -/
structure Environment (ε : Type) where
  const2ModIdx : HashMap Name ModuleIdx
  constants : SMap Name ConstantInfo
  extensions : Array ε
  trustLevel : Nat := 0
  quotInit : Bool := false
  imports : Array Name := #[]

namespace Environment

def add {ε : Type} (env : Environment ε) (cinfo : ConstantInfo) : Environment ε :=
  { env with constants := env.constants.insert cinfo.name cinfo }

def find {ε : Type} (env : Environment ε) (n : Name) : Option ConstantInfo :=
  env.constants.find n

def contains {ε : Type} (env : Environment ε) (n : Name) : Bool :=
  (env.constants.find n).isSome

def switch {ε : Type} (env : Environment ε) : Environment ε :=
  { env with constants := env.constants.switch }

def markQuotInit {ε : Type} (env : Environment ε) : Environment ε :=
  { env with quotInit := true }

def isQuotInit {ε : Type} (env : Environment ε) : Bool :=
  env.quotInit

def getTrustLevel {ε : Type} (env : Environment ε) : Nat :=
  env.trustLevel

def getModuleIdxFor {ε : Type} (env : Environment ε) (c : Name) : Option ModuleIdx :=
  env.const2ModIdx.find c

end Environment

/-- A raw environment extension (source structure `EnvExtension`): a fixed
slot index into the `extensions` array plus the extension's initial
state. -/
structure EnvExtension (σ : Type) where
  idx : Nat
  initial : σ

namespace EnvExtension

/-- Source `setStateUnsafe`, with the identity in place of the erasing cast;
an out-of-range slot leaves the array unchanged, as the runtime array update
does. -/
def setState {σ : Type} (ext : EnvExtension σ) (env : Environment σ) (s : σ) : Environment σ :=
  { env with extensions := env.extensions.setD ext.idx s }

/-- Source `getStateUnsafe`: read the slot; per the spec an absent slot
defaults to the extension's initial state. -/
def getState {σ : Type} (ext : EnvExtension σ) (env : Environment σ) : σ :=
  env.extensions.getD ext.idx ext.initial

/-- Source `modifyStateUnsafe`: read-modify-write of one slot; out of range
is a no-op, as the runtime array modify is. -/
def modifyState {σ : Type} (ext : EnvExtension σ) (env : Environment σ) (f : σ → σ) :
    Environment σ :=
  { env with extensions := env.extensions.modify ext.idx f }

end EnvExtension

/-- Source structure `PersistentEnvExtensionState`: per-imported-module
entry arrays, the deferred imported aggregate, the current module's entries
in reverse-chronological order, and the optional memoized full state. -/
structure PersistentEnvExtensionState (α σ : Type) where
  importedEntries : Array (Array α)
  importedState : Thunk σ
  entries : List α := []
  state : Option σ := none

/-- Source structure `PersistentEnvExtension`: an extension with
serialization support. -/
structure PersistentEnvExtension (α σ : Type) extends
    EnvExtension (PersistentEnvExtensionState α σ) where
  name : Name
  someVal : α
  addEntryFn : Bool → σ → α → σ
  toArrayFn : List α → Array α
  lazy : Bool

namespace PersistentEnvExtension

def getEntries {α σ : Type} (ext : PersistentEnvExtension α σ)
    (env : Environment (PersistentEnvExtensionState α σ)) : List α :=
  (ext.toEnvExtension.getState env).entries

def getModuleEntries {α σ : Type} (ext : PersistentEnvExtension α σ)
    (env : Environment (PersistentEnvExtensionState α σ)) (m : Nat) : Array α :=
  (ext.toEnvExtension.getState env).importedEntries.getD m #[]

/-- The per-slot update of `addEntry`: prepend the entry, and advance the
memoized state by one fold step when it is present. -/
def addEntryStep {α σ : Type} (ext : PersistentEnvExtension α σ) (a : α)
    (s : PersistentEnvExtensionState α σ) : PersistentEnvExtensionState α σ :=
  let entries := a :: s.entries
  match s.state with
  | none => { s with entries := entries }
  | some d => { s with entries := entries, state := some (ext.addEntryFn false d a) }

def addEntry {α σ : Type} (ext : PersistentEnvExtension α σ)
    (env : Environment (PersistentEnvExtensionState α σ)) (a : α) :
    Environment (PersistentEnvExtensionState α σ) :=
  ext.toEnvExtension.modifyState env (ext.addEntryStep a)

def forceStateAux {α σ : Type} (ext : PersistentEnvExtension α σ)
    (s : PersistentEnvExtensionState α σ) : σ :=
  match s.state with
  | some d => d
  | none => s.entries.foldr (fun a s' => ext.addEntryFn false s' a) s.importedState.get

/-- The per-slot update of `forceState`: memoize the full fold. -/
def forceStateStep {α σ : Type} (ext : PersistentEnvExtension α σ)
    (s : PersistentEnvExtensionState α σ) : PersistentEnvExtensionState α σ :=
  { s with state := some (ext.forceStateAux s) }

def forceState {α σ : Type} (ext : PersistentEnvExtension α σ)
    (env : Environment (PersistentEnvExtensionState α σ)) :
    Environment (PersistentEnvExtensionState α σ) :=
  ext.toEnvExtension.modifyState env ext.forceStateStep

def getState {α σ : Type} (ext : PersistentEnvExtension α σ)
    (env : Environment (PersistentEnvExtensionState α σ)) : σ :=
  ext.forceStateAux (ext.toEnvExtension.getState env)

end PersistentEnvExtension

/-- The error cases raised by this core (the source raises them as
`IO.userError` strings; the constructors carry the distinguishing
content). -/
inductive EnvError
  | registerOutsideInit
  | envDuringInit
  | duplicateExtension (n : Name)
  | ioError (msg : String)
deriving DecidableEq

/-- The process-wide mutable state accessed by the registration and
construction entry points: the `IO.initializing` flag, the contents of
`envExtensionsRef` and of `persistentEnvExtensionsRef`.  The erased slot
type is carried monomorphically at `PersistentEnvExtensionState α σ`. -/
structure RegistryState (α σ : Type) where
  initializing : Bool
  envExts : Array (EnvExtension (PersistentEnvExtensionState α σ))
  pExts : Array (PersistentEnvExtension α σ)

/-- The fragment of `IO` these entry points use: state over the registry
plus `EnvError` exceptions. -/
abbrev RegM (α σ : Type) (β : Type) := EStateM EnvError (RegistryState α σ) β

/-- Source `IO.initializing`. -/
def getInitializing {α σ : Type} : RegM α σ Bool :=
  fun st => EStateM.Result.ok st.initializing st

/-- Source `registerEnvExtensionUnsafe`, at the monomorphic slot type:
fails unless the process is in its initialization phase; otherwise assigns
the next slot index and appends the descriptor to `envExtensionsRef`. -/
def registerEnvExtension {α σ : Type} (initState : PersistentEnvExtensionState α σ) :
    RegM α σ (EnvExtension (PersistentEnvExtensionState α σ)) := do
  let initializing ← getInitializing
  unless initializing do throw EnvError.registerOutsideInit
  let st ← EStateM.get
  let idx := st.envExts.size
  let ext : EnvExtension (PersistentEnvExtensionState α σ) := { idx := idx, initial := initState }
  EStateM.set { st with envExts := st.envExts.push ext }
  pure ext

/-- Source `mkInitialExtensionStates`: the registry's initial-state
snapshot, in slot order. -/
def mkInitialExtensionStates {α σ : Type} : RegM α σ (Array (PersistentEnvExtensionState α σ)) := do
  let st ← EStateM.get
  pure (st.envExts.map fun ext => ext.initial)

/-- Source `mkEmptyEnvironment`: fails when called during the
initialization phase; otherwise builds an environment from empty indices
and the registry snapshot. -/
def mkEmptyEnvironment {α σ : Type} (trustLevel : Nat) :
    RegM α σ (Environment (PersistentEnvExtensionState α σ)) := do
  let initializing ← getInitializing
  if initializing then throw EnvError.envDuringInit
  let exts ← mkInitialExtensionStates
  pure { const2ModIdx := HashMap.empty,
         constants := SMap.empty,
         trustLevel := trustLevel,
         extensions := exts }

/-- Source structure `PersistentEnvExtensionDescr`. -/
structure PersistentEnvExtensionDescr (α σ : Type) where
  name : Name
  initState : σ
  someVal : α
  addEntryFn : Bool → σ → α → σ
  toArrayFn : List α → Array α := fun es => es.toArray
  lazy : Bool := true

/-- Source `registerPersistentEnvExtensionUnsafe`: rejects a duplicate
extension name, then registers the raw extension slot and appends the
persistent descriptor to `persistentEnvExtensionsRef`. -/
def registerPersistentEnvExtension {α σ : Type} (descr : PersistentEnvExtensionDescr α σ) :
    RegM α σ (PersistentEnvExtension α σ) := do
  let s : PersistentEnvExtensionState α σ := {
    importedEntries := #[],
    importedState := Thunk.pure descr.initState,
    entries := [],
    state := some descr.initState }
  let st ← EStateM.get
  if st.pExts.any fun ext => ext.name == descr.name then
    throw (EnvError.duplicateExtension descr.name)
  let ext ← registerEnvExtension s
  let pExt : PersistentEnvExtension α σ := {
    toEnvExtension := ext,
    name := descr.name,
    someVal := descr.someVal,
    addEntryFn := descr.addEntryFn,
    toArrayFn := descr.toArrayFn,
    lazy := descr.lazy }
  let st' ← EStateM.get
  EStateM.set { st' with pExts := st'.pExts.push pExt }
  pure pExt

/-- Source structure `ModuleData`: the content of one serialized module
file, with the erased entry type carried at `α`. -/
structure ModuleData (α : Type) where
  imports : Array Name
  constants : Array ConstantInfo
  entries : Array (Name × Array α)
  serialized : ByteArray

/-- Modelled from the spec: the set of already-visited module names
(`NameSet` is not part of the verified source), reduced to a list with
membership and insertion. -/
abbrev NameSet := List Name

def NameSet.contains (s : NameSet) (n : Name) : Bool := List.contains s n

def NameSet.insert (s : NameSet) (n : Name) : NameSet := n :: s

/-- Source `importModulesAux`, the depth-first transitive import walk.  The
source declares it `partial`; the embedding adds explicit fuel, `none`
standing for a computation that did not finish within the fuel.  The
collaborator pipeline `findOLean` followed by `readModuleData` is the
parameter `read`. -/
def importModulesAux {α : Type} (read : Name → Except EnvError (ModuleData α)) :
    Nat → List Name → NameSet × Array (ModuleData α) →
    Option (Except EnvError (NameSet × Array (ModuleData α)))
  | _, [], r => some (Except.ok r)
  | 0, _ :: _, _ => none
  | Nat.succ fuel, m :: ms, (s, mods) =>
    if s.contains m then
      importModulesAux read fuel ms (s, mods)
    else
      let s := s.insert m
      match read m with
      | Except.error e => some (Except.error e)
      | Except.ok mod =>
        match importModulesAux read fuel mod.imports.toList (s, mods) with
        | none => none
        | some (Except.error e) => some (Except.error e)
        | some (Except.ok (s, mods)) => importModulesAux read fuel ms (s, mods.push mod)

/-- Source `getEntriesFor`: linear scan of one module's serialized entry
sections for the section bearing the given extension name; no match yields
the empty array. -/
def getEntriesFor {α : Type} (mod : ModuleData α) (extId : Name) (i : Nat) : Array α :=
  if h : i < mod.entries.size then
    let curr := mod.entries[i]
    if curr.1 == extId then curr.2 else getEntriesFor mod extId (i + 1)
  else
    #[]
termination_by mod.entries.size - i

/-- Source `setImportedEntries`: for every imported module in order and
every persistent extension, push that module's entry section onto the
extension's `importedEntries`. -/
def setImportedEntries {α σ : Type} (pExts : Array (PersistentEnvExtension α σ))
    (env : Environment (PersistentEnvExtensionState α σ)) (mods : Array (ModuleData α)) :
    Environment (PersistentEnvExtensionState α σ) :=
  mods.foldl (fun env mod =>
    pExts.foldl (fun env extDescr =>
      extDescr.toEnvExtension.modifyState env fun s =>
        { s with importedEntries := s.importedEntries.push (getEntriesFor mod extDescr.name 0) })
      env)
    env

/-- Source `mkImportedStateThunk`: the deferred fold of all imported
entries, module order then entry order, with `isImported = true`. -/
def mkImportedStateThunk {α σ : Type} (entries : Array (Array α)) (initial : σ)
    (addEntryFn : Bool → σ → α → σ) : Thunk σ :=
  Thunk.mk fun _ =>
    entries.foldl (fun s es => es.foldl (fun s entry => addEntryFn true s entry) s) initial

/-- The per-extension state update performed by
`finalizePersistentExtensions`. -/
def finalizeStep {α σ : Type} (extDescr : PersistentEnvExtension α σ)
    (s : PersistentEnvExtensionState α σ) : PersistentEnvExtensionState α σ :=
  let importedState :=
    mkImportedStateThunk s.importedEntries extDescr.toEnvExtension.initial.importedState.get
      extDescr.addEntryFn
  { s with importedState := importedState,
           entries := [],
           state := if extDescr.lazy then none else some importedState.get }

/-- Source `finalizePersistentExtensions`. -/
def finalizePersistentExtensions {α σ : Type} (pExts : Array (PersistentEnvExtension α σ))
    (env : Environment (PersistentEnvExtensionState α σ)) :
    Environment (PersistentEnvExtensionState α σ) :=
  pExts.foldl (fun env extDescr => extDescr.toEnvExtension.modifyState env (finalizeStep extDescr))
    env

/-- Source `Array.iterate`: fold with the running index. -/
def arrayIterate {γ β : Type} (a : Array γ) (b : β) (f : Nat → γ → β → β) : β :=
  (a.foldl (fun p x => (p.1 + 1, f p.1 x p.2)) ((0 : Nat), b)).2

/-- Source `importModules`: run the transitive import walk, build the
declaration and module indices, snapshot fresh extension states, distribute
the imported entries, finalize every persistent extension, and replay the
legacy modifications (collaborator `perform`).  Registry reads are the
explicit `envExts`/`pExts` arguments; the fuel is threaded into the
`partial` walk. -/
def importModules {α σ : Type} (read : Name → Except EnvError (ModuleData α))
    (perform : Environment (PersistentEnvExtensionState α σ) → ByteArray →
      Except EnvError (Environment (PersistentEnvExtensionState α σ)))
    (envExts : Array (EnvExtension (PersistentEnvExtensionState α σ)))
    (pExts : Array (PersistentEnvExtension α σ))
    (fuel : Nat) (modNames : List Name) (trustLevel : Nat) :
    Option (Except EnvError (Environment (PersistentEnvExtensionState α σ))) :=
  match importModulesAux read fuel modNames ([], #[]) with
  | none => none
  | some (Except.error e) => some (Except.error e)
  | some (Except.ok (_, mods)) =>
    let const2ModIdx : HashMap Name ModuleIdx :=
      arrayIterate mods HashMap.empty fun modIdx mod m =>
        mod.constants.foldl (fun m cinfo => m.insert cinfo.name modIdx) m
    let constants : SMap Name ConstantInfo :=
      mods.foldl (fun cs mod => mod.constants.foldl (fun cs cinfo => cs.insert cinfo.name cinfo) cs)
        SMap.empty
    let constants := constants.switch
    let exts := envExts.map fun ext => ext.initial
    let env : Environment (PersistentEnvExtensionState α σ) := {
      const2ModIdx := const2ModIdx,
      constants := constants,
      extensions := exts,
      quotInit := !modNames.isEmpty,
      trustLevel := trustLevel,
      imports := modNames.toArray }
    let env := setImportedEntries pExts env mods
    let env := finalizePersistentExtensions pExts env
    some (mods.foldl (fun r mod =>
      match r with
      | Except.error e => Except.error e
      | Except.ok env => perform env mod.serialized) (Except.ok env))

/-- The transitive import closure of a root request list: the roots
themselves, plus every import of a closure member whose module record the
resolver and deserializer deliver. -/
inductive InClosure {α : Type} (read : Name → Except EnvError (ModuleData α))
    (roots : List Name) : Name → Prop
  | root (n : Name) : n ∈ roots → InClosure read roots n
  | step (m n : Name) (mod : ModuleData α) : InClosure read roots m →
      read m = Except.ok mod → n ∈ mod.imports.toList → InClosure read roots n

/-! ### Map lemmas -/

theorem findList_insertList_self {α β : Type} [BEq α] [LawfulBEq α]
    (l : List (α × β)) (k : α) (v : β) : findList (insertList l k v) k = some v := by
  induction l with
  | nil => simp [insertList, findList]
  | cons p rest ih =>
    rcases p with ⟨k', v'⟩
    by_cases h : k' == k
    · simp [insertList, h, findList]
    · simp [insertList, h, findList, ih]

theorem SMap.find_insert {α β : Type} [BEq α] [LawfulBEq α] (m : SMap α β) (k : α) (v : β) :
    (m.insert k v).find k = some v := by
  by_cases h : m.stage1
  · simp [SMap.insert, SMap.find, h, findList_insertList_self]
  · simp [SMap.insert, SMap.find, h, findList_insertList_self]

/-! ### Extension slot lemmas -/

theorem EnvExtension.getState_modifyState {σ : Type} (ext : EnvExtension σ)
    (env : Environment σ) (f : σ → σ) :
    ext.getState (ext.modifyState env f) =
      if ext.idx < env.extensions.size then f (ext.getState env) else ext.getState env := by
  by_cases h : ext.idx < env.extensions.size
  · simp [EnvExtension.getState, EnvExtension.modifyState, Array.getD, Array.size_modify, h,
      Array.getElem_modify]
  · simp [EnvExtension.getState, EnvExtension.modifyState, Array.getD, Array.size_modify, h]

theorem EnvExtension.size_modifyState {σ : Type} (ext : EnvExtension σ)
    (env : Environment σ) (f : σ → σ) :
    (ext.modifyState env f).extensions.size = env.extensions.size := by
  simp [EnvExtension.modifyState, Array.size_modify]

/-- C5: last-write-wins on the declaration index.  The staged map is
modelled from the spec; the lemma holds for every environment, in either
stage of the index. -/
theorem environment_add_lastWriteWins {ε : Type} (e : Environment ε)
    (d1 d2 : ConstantInfo) (n : Name) (h1 : d1.name = n) (h2 : d2.name = n) :
    Environment.find (Environment.add (Environment.add e d1) d2) n = some d2 := by
  show (((e.constants.insert d1.name d1).insert d2.name d2).find n) = some d2
  rw [h2]
  exact SMap.find_insert _ n d2

theorem environment_add_lastWriteWins_witness :
    Environment.find
      (Environment.add
        (Environment.add
          { const2ModIdx := HashMap.empty, constants := SMap.empty,
            extensions := (#[] : Array Unit) }
          { name := "A", payload := 1 })
        { name := "A", payload := 2 }) "A" = some { name := "A", payload := 2 } :=
  environment_add_lastWriteWins _ _ _ "A" rfl rfl

/-! ### Registration and empty-environment construction -/

/-- C7: `mkEmptyEnvironment` fails with the initialization-order error
exactly when the process is still initializing; otherwise it returns the
environment with empty indices, the registry's initial-state snapshot in
slot order, the given trust level, `quotInit = false` and no imports, and
the registry state is untouched either way. -/
theorem mkEmptyEnvironment_spec {α σ : Type} (t : Nat) (st : RegistryState α σ) :
    mkEmptyEnvironment (α := α) (σ := σ) t st =
      if st.initializing then EStateM.Result.error EnvError.envDuringInit st
      else
        EStateM.Result.ok
          { const2ModIdx := HashMap.empty, constants := SMap.empty,
            extensions := st.envExts.map fun ext => ext.initial,
            trustLevel := t, quotInit := false, imports := #[] } st := by
  rcases st with ⟨init, envExts, pExts⟩
  cases init <;> rfl

/-- The persistent extension value produced by a successful registration of
`descr` against registry state `st`: next slot index, initial slot state
seeded with `descr.initState`, descriptor fields copied. -/
def mkRegisteredPExt {α σ : Type} (descr : PersistentEnvExtensionDescr α σ)
    (st : RegistryState α σ) : PersistentEnvExtension α σ :=
  { toEnvExtension := {
      idx := st.envExts.size,
      initial := {
        importedEntries := #[],
        importedState := Thunk.pure descr.initState,
        entries := [],
        state := some descr.initState } },
    name := descr.name,
    someVal := descr.someVal,
    addEntryFn := descr.addEntryFn,
    toArrayFn := descr.toArrayFn,
    lazy := descr.lazy }

/-- C8: registering a persistent extension whose name is already taken
fails with the duplicate-name error and leaves the registry unchanged;
registering a fresh name during the initialization phase succeeds,
appending the new descriptor to both registry arrays. -/
theorem registerPersistentEnvExtension_spec {α σ : Type}
    (descr : PersistentEnvExtensionDescr α σ) (st : RegistryState α σ) :
    ((st.pExts.any fun ext => ext.name == descr.name) = true →
      registerPersistentEnvExtension descr st =
        EStateM.Result.error (EnvError.duplicateExtension descr.name) st) ∧
    ((st.pExts.any fun ext => ext.name == descr.name) = false → st.initializing = true →
      registerPersistentEnvExtension descr st =
        EStateM.Result.ok (mkRegisteredPExt descr st)
          { st with
            envExts := st.envExts.push (mkRegisteredPExt descr st).toEnvExtension,
            pExts := st.pExts.push (mkRegisteredPExt descr st) }) := by
  constructor
  · intro hdup
    simp only [registerPersistentEnvExtension, bind, EStateM.bind, EStateM.get, hdup]
    rfl
  · intro hdup hinit
    rcases st with ⟨init, envExts, pExts⟩
    simp only at hdup hinit
    subst hinit
    simp only [registerPersistentEnvExtension, bind, EStateM.bind, EStateM.get, hdup]
    rfl

def descrX : PersistentEnvExtensionDescr Nat Nat :=
  { name := "X", initState := 0, someVal := 0, addEntryFn := fun _ s a => s + a }

def descrY : PersistentEnvExtensionDescr Nat Nat :=
  { name := "Y", initState := 0, someVal := 0, addEntryFn := fun _ s a => s + a }

/-- A registry state holding one persistent extension named `X`, with the
process still initializing. -/
def stX : RegistryState Nat Nat :=
  { initializing := true,
    envExts := #[(mkRegisteredPExt descrX
      { initializing := true, envExts := #[], pExts := #[] }).toEnvExtension],
    pExts := #[mkRegisteredPExt descrX { initializing := true, envExts := #[], pExts := #[] }] }

theorem registerPersistentEnvExtension_spec_witness :
    registerPersistentEnvExtension descrX stX =
      EStateM.Result.error (EnvError.duplicateExtension "X") stX ∧
    registerPersistentEnvExtension descrY stX =
      EStateM.Result.ok (mkRegisteredPExt descrY stX)
        { stX with
          envExts := stX.envExts.push (mkRegisteredPExt descrY stX).toEnvExtension,
          pExts := stX.pExts.push (mkRegisteredPExt descrY stX) } :=
  ⟨(registerPersistentEnvExtension_spec descrX stX).1 rfl,
   (registerPersistentEnvExtension_spec descrY stX).2 rfl rfl⟩

/-! ### Persistent extension fold state -/

/-- The cached-state invariant: whenever the memoized state is present it
equals the fold of the imported aggregate with the current entries applied
oldest-first, each step with `isImported = false`. -/
def FoldInv {α σ : Type} (ext : PersistentEnvExtension α σ)
    (s : PersistentEnvExtensionState α σ) : Prop :=
  ∀ d, s.state = some d →
    d = s.entries.foldr (fun a t => ext.addEntryFn false t a) s.importedState.get

theorem addEntryStep_entries {α σ : Type} (ext : PersistentEnvExtension α σ) (a : α)
    (s : PersistentEnvExtensionState α σ) : (ext.addEntryStep a s).entries = a :: s.entries := by
  cases hst : s.state <;> simp [PersistentEnvExtension.addEntryStep, hst]

theorem addEntryStep_importedEntries {α σ : Type} (ext : PersistentEnvExtension α σ) (a : α)
    (s : PersistentEnvExtensionState α σ) :
    (ext.addEntryStep a s).importedEntries = s.importedEntries := by
  cases hst : s.state <;> simp [PersistentEnvExtension.addEntryStep, hst]

theorem addEntryStep_importedState {α σ : Type} (ext : PersistentEnvExtension α σ) (a : α)
    (s : PersistentEnvExtensionState α σ) :
    (ext.addEntryStep a s).importedState = s.importedState := by
  cases hst : s.state <;> simp [PersistentEnvExtension.addEntryStep, hst]

theorem foldInv_addEntryStep {α σ : Type} (ext : PersistentEnvExtension α σ) (a : α)
    (s : PersistentEnvExtensionState α σ) (h : FoldInv ext s) :
    FoldInv ext (ext.addEntryStep a s) := by
  intro d hd
  rw [addEntryStep_entries, addEntryStep_importedState]
  cases hst : s.state with
  | none => simp [PersistentEnvExtension.addEntryStep, hst] at hd
  | some d0 =>
    simp [PersistentEnvExtension.addEntryStep, hst] at hd
    rw [← hd, List.foldr_cons, ← h d0 hst]

theorem foldInv_forceStateStep {α σ : Type} (ext : PersistentEnvExtension α σ)
    (s : PersistentEnvExtensionState α σ) (h : FoldInv ext s) :
    FoldInv ext (ext.forceStateStep s) := by
  intro d hd
  simp [PersistentEnvExtension.forceStateStep] at hd
  cases hst : s.state with
  | some d0 =>
    rw [← hd]
    simp [PersistentEnvExtension.forceStateAux, hst]
    exact h d0 hst
  | none =>
    rw [← hd]
    simp [PersistentEnvExtension.forceStateAux, hst]
    rfl

theorem foldInv_finalizeStep {α σ : Type} (ext : PersistentEnvExtension α σ)
    (s : PersistentEnvExtensionState α σ) : FoldInv ext (finalizeStep ext s) := by
  intro d hd
  by_cases hl : ext.lazy
  · simp [finalizeStep, hl] at hd
  · simp [finalizeStep, hl] at hd
    simp [finalizeStep, hl, ← hd]

theorem foldInv_pushImported {α σ : Type} (ext : PersistentEnvExtension α σ)
    (s : PersistentEnvExtensionState α σ) (entries : Array α) (h : FoldInv ext s) :
    FoldInv ext { s with importedEntries := s.importedEntries.push entries } := h

theorem foldInv_registration {α σ : Type} (ext : PersistentEnvExtension α σ) (c : σ) :
    FoldInv ext
      { importedEntries := #[], importedState := Thunk.pure c, entries := [],
        state := some c } := by
  intro d hd
  simp at hd
  rw [← hd]
  rfl

/-- An interleaving of current-module operations on one persistent
extension: entry additions and cache-forcing steps.  (`getState` itself is
a pure read and does not change the environment.) -/
inductive PExtOp (α : Type)
  | add (a : α)
  | force

def applyOp {α σ : Type} (ext : PersistentEnvExtension α σ)
    (env : Environment (PersistentEnvExtensionState α σ)) :
    PExtOp α → Environment (PersistentEnvExtensionState α σ)
  | PExtOp.add a => ext.addEntry env a
  | PExtOp.force => ext.forceState env

def applyOps {α σ : Type} (ext : PersistentEnvExtension α σ)
    (env : Environment (PersistentEnvExtensionState α σ)) (ops : List (PExtOp α)) :
    Environment (PersistentEnvExtensionState α σ) :=
  ops.foldl (fun env op => applyOp ext env op) env

/-- The entries a list of operations adds, oldest-first. -/
def opEntries {α : Type} : List (PExtOp α) → List α
  | [] => []
  | PExtOp.add a :: ops => a :: opEntries ops
  | PExtOp.force :: ops => opEntries ops

theorem applyOps_slot {α σ : Type} (ext : PersistentEnvExtension α σ) (ops : List (PExtOp α)) :
    ∀ env : Environment (PersistentEnvExtensionState α σ),
      ext.toEnvExtension.idx < env.extensions.size →
      (applyOps ext env ops).extensions.size = env.extensions.size ∧
      (ext.toEnvExtension.getState (applyOps ext env ops)).importedEntries =
        (ext.toEnvExtension.getState env).importedEntries ∧
      (ext.toEnvExtension.getState (applyOps ext env ops)).importedState =
        (ext.toEnvExtension.getState env).importedState ∧
      (ext.toEnvExtension.getState (applyOps ext env ops)).entries =
        (opEntries ops).reverse ++ (ext.toEnvExtension.getState env).entries ∧
      (FoldInv ext (ext.toEnvExtension.getState env) →
        FoldInv ext (ext.toEnvExtension.getState (applyOps ext env ops))) := by
  induction ops with
  | nil => intro env hidx; simp [applyOps, opEntries]
  | cons op ops ih =>
    intro env hidx
    have hstep : applyOps ext env (op :: ops) = applyOps ext (applyOp ext env op) ops := rfl
    have hsize1 : (applyOp ext env op).extensions.size = env.extensions.size := by
      cases op <;>
        simp [applyOp, PersistentEnvExtension.addEntry, PersistentEnvExtension.forceState,
          EnvExtension.size_modifyState]
    have hslot1 : ∀ f, ext.toEnvExtension.getState
        (ext.toEnvExtension.modifyState env f) = f (ext.toEnvExtension.getState env) := by
      intro f; rw [EnvExtension.getState_modifyState, if_pos hidx]
    obtain ⟨hsize, hie, his, hent, hfi⟩ := ih (applyOp ext env op) (hsize1 ▸ hidx)
    rw [hstep]
    refine ⟨by rw [hsize, hsize1], ?_, ?_, ?_, ?_⟩
    · cases op with
      | add a =>
        rw [hie]
        show (ext.toEnvExtension.getState (ext.addEntry env a)).importedEntries = _
        rw [PersistentEnvExtension.addEntry, hslot1, addEntryStep_importedEntries]
      | force =>
        rw [hie]
        show (ext.toEnvExtension.getState (ext.forceState env)).importedEntries = _
        rw [PersistentEnvExtension.forceState, hslot1]
        rfl
    · cases op with
      | add a =>
        rw [his]
        show (ext.toEnvExtension.getState (ext.addEntry env a)).importedState = _
        rw [PersistentEnvExtension.addEntry, hslot1, addEntryStep_importedState]
      | force =>
        rw [his]
        show (ext.toEnvExtension.getState (ext.forceState env)).importedState = _
        rw [PersistentEnvExtension.forceState, hslot1]
        rfl
    · cases op with
      | add a =>
        rw [hent]
        show _ = (opEntries (PExtOp.add a :: ops)).reverse ++ _
        have : (ext.toEnvExtension.getState (applyOp ext env (PExtOp.add a))).entries =
            a :: (ext.toEnvExtension.getState env).entries := by
          show (ext.toEnvExtension.getState (ext.addEntry env a)).entries = _
          rw [PersistentEnvExtension.addEntry, hslot1, addEntryStep_entries]
        rw [this, opEntries]
        simp
      | force =>
        rw [hent]
        have : (ext.toEnvExtension.getState (applyOp ext env PExtOp.force)).entries =
            (ext.toEnvExtension.getState env).entries := by
          show (ext.toEnvExtension.getState (ext.forceState env)).entries = _
          rw [PersistentEnvExtension.forceState, hslot1]
          rfl
        rw [this, opEntries]
    · intro hinv
      apply hfi
      cases op with
      | add a =>
        show FoldInv ext (ext.toEnvExtension.getState (ext.addEntry env a))
        rw [PersistentEnvExtension.addEntry, hslot1]
        exact foldInv_addEntryStep ext a _ hinv
      | force =>
        show FoldInv ext (ext.toEnvExtension.getState (ext.forceState env))
        rw [PersistentEnvExtension.forceState, hslot1]
        exact foldInv_forceStateStep ext _ hinv

/-- C1: starting from an extension slot holding only the imported aggregate
(no current entries, cache empty or already equal to the aggregate), any
interleaving of `addEntry` and `forceState` operations leaves `getState`
equal to the left fold of `addEntryFn` with `isImported = false` over the
added entries, oldest-first, seeded with the imported aggregate —
independent of where the forcing steps occur.  (`getState` between
additions is a pure read and leaves the environment unchanged.) -/
theorem persistentExt_incremental_fold {α σ : Type} (ext : PersistentEnvExtension α σ)
    (env : Environment (PersistentEnvExtensionState α σ)) (ops : List (PExtOp α))
    (hidx : ext.toEnvExtension.idx < env.extensions.size)
    (hentries : (ext.toEnvExtension.getState env).entries = [])
    (hinv : FoldInv ext (ext.toEnvExtension.getState env)) :
    ext.getState (applyOps ext env ops) =
      (opEntries ops).foldl (fun t a => ext.addEntryFn false t a)
        (ext.toEnvExtension.getState env).importedState.get := by
  obtain ⟨hsize, hie, his, hent, hfi⟩ := applyOps_slot ext ops env hidx
  have hinv' := hfi hinv
  rw [hentries, List.append_nil] at hent
  rw [PersistentEnvExtension.getState, PersistentEnvExtension.forceStateAux]
  cases hst : (ext.toEnvExtension.getState (applyOps ext env ops)).state with
  | some d =>
    have hd := hinv' d hst
    rw [hd, hent, his, ← List.foldl_reverse]
    simp
  | none =>
    rw [hent, his, ← List.foldl_reverse]
    simp

/-- A concrete persistent extension over natural numbers: initial aggregate
`0`, fold step addition. -/
def pextNat : PersistentEnvExtension Nat Nat :=
  { toEnvExtension := {
      idx := 0,
      initial := {
        importedEntries := #[], importedState := Thunk.pure 0,
        entries := [], state := some 0 } },
    name := "X", someVal := 0,
    addEntryFn := fun _ s a => s + a,
    toArrayFn := fun es => es.toArray,
    lazy := true }

/-- An environment holding the single slot of `pextNat` in its registration
state. -/
def envNat : Environment (PersistentEnvExtensionState Nat Nat) :=
  { const2ModIdx := HashMap.empty, constants := SMap.empty,
    extensions := #[pextNat.toEnvExtension.initial] }

theorem persistentExt_incremental_fold_witness :
    pextNat.getState (applyOps pextNat envNat [PExtOp.add 3, PExtOp.force, PExtOp.add 4]) =
      (opEntries [PExtOp.add 3, PExtOp.force, PExtOp.add 4]).foldl
        (fun t a => pextNat.addEntryFn false t a)
        (pextNat.toEnvExtension.getState envNat).importedState.get ∧
    (opEntries [PExtOp.add 3, PExtOp.force, PExtOp.add 4]).foldl
        (fun t a => pextNat.addEntryFn false t a)
        (pextNat.toEnvExtension.getState envNat).importedState.get = 7 :=
  ⟨persistentExt_incremental_fold pextNat envNat _ (by decide) rfl
      (fun d hd => (Option.some.inj hd).symm),
   rfl⟩

/-- C4 counterexample: after adding entries `1` then `2` (so `1` is oldest),
`getEntries` returns `[2, 1]` — the internal storage order, newest first —
not the oldest-first order `[1, 2]` the claim states. -/
theorem getEntries_not_oldestFirst :
    pextNat.getEntries (pextNat.addEntry (pextNat.addEntry envNat 1) 2) = [2, 1] ∧
    pextNat.getEntries (pextNat.addEntry (pextNat.addEntry envNat 1) 2) ≠ [1, 2] := by
  constructor
  · rfl
  · intro h
    have h21 : ([2, 1] : List Nat) = [1, 2] := h
    simp at h21

/-- Iterated `addEntry`, oldest entry first. -/
def addEntries {α σ : Type} (ext : PersistentEnvExtension α σ)
    (env : Environment (PersistentEnvExtensionState α σ)) (l : List α) :
    Environment (PersistentEnvExtensionState α σ) :=
  l.foldl (fun env a => ext.addEntry env a) env

theorem addEntries_eq_applyOps {α σ : Type} (ext : PersistentEnvExtension α σ) (l : List α) :
    ∀ env, addEntries ext env l = applyOps ext env (l.map PExtOp.add) := by
  induction l with
  | nil => intro env; rfl
  | cons a l ih => intro env; simp [addEntries, applyOps, applyOp] at ih ⊢; exact ih _

theorem opEntries_map_add {α : Type} (l : List α) : opEntries (l.map PExtOp.add) = l := by
  induction l with
  | nil => rfl
  | cons a l ih => simp [opEntries, ih]

/-- C4 amended: `getEntries` returns the current module's entries in the
internal storage order — newest first, the reverse of the oldest-first
addition order (`addEntry` prepends; `mkModuleData` reverses this list
before serializing). -/
theorem getEntries_storage_order {α σ : Type} (ext : PersistentEnvExtension α σ)
    (env : Environment (PersistentEnvExtensionState α σ)) (l : List α)
    (hidx : ext.toEnvExtension.idx < env.extensions.size) :
    ext.getEntries (addEntries ext env l) = l.reverse ++ ext.getEntries env := by
  obtain ⟨hsize, hie, his, hent, hfi⟩ := applyOps_slot ext (l.map PExtOp.add) env hidx
  rw [PersistentEnvExtension.getEntries, addEntries_eq_applyOps, hent, opEntries_map_add]
  rfl

theorem getEntries_storage_order_witness :
    pextNat.getEntries (addEntries pextNat envNat [1, 2, 3]) =
      [1, 2, 3].reverse ++ pextNat.getEntries envNat :=
  getEntries_storage_order pextNat envNat [1, 2, 3] (by decide)

/-- The environments reachable for one persistent extension through
registration (an `mkEmptyEnvironment` snapshot of its registered slot), the
entry distribution and finalization of an import, `addEntry` and
`forceState`. -/
inductive ReachEnv {α σ : Type} (ext : PersistentEnvExtension α σ) :
    Environment (PersistentEnvExtensionState α σ) → Prop
  | registered (env : Environment (PersistentEnvExtensionState α σ)) (c : σ)
      (h : ext.toEnvExtension.getState env =
        { importedEntries := #[], importedState := Thunk.pure c, entries := [],
          state := some c }) : ReachEnv ext env
  | pushImported (env : Environment (PersistentEnvExtensionState α σ)) (entries : Array α)
      (h : ReachEnv ext env) :
      ReachEnv ext (ext.toEnvExtension.modifyState env fun s =>
        { s with importedEntries := s.importedEntries.push entries })
  | finalized (env : Environment (PersistentEnvExtensionState α σ)) (h : ReachEnv ext env) :
      ReachEnv ext (ext.toEnvExtension.modifyState env (finalizeStep ext))
  | addEntry (env : Environment (PersistentEnvExtensionState α σ)) (a : α)
      (h : ReachEnv ext env) : ReachEnv ext (ext.addEntry env a)
  | forceState (env : Environment (PersistentEnvExtensionState α σ)) (h : ReachEnv ext env) :
      ReachEnv ext (ext.forceState env)

/-- C3: on every reachable environment, whenever the cached state is
present it equals the fold of the imported aggregate with the current
entries oldest-first (`isImported = false`); and `addEntry` performed while
the cache is present extends it by exactly one fold step. -/
theorem persistentExt_cachedState_invariant {α σ : Type} (ext : PersistentEnvExtension α σ)
    (env : Environment (PersistentEnvExtensionState α σ)) (hreach : ReachEnv ext env) :
    (∀ d, (ext.toEnvExtension.getState env).state = some d →
      d = ((ext.toEnvExtension.getState env).entries.reverse).foldl
        (fun t a => ext.addEntryFn false t a)
        (ext.toEnvExtension.getState env).importedState.get) ∧
    (∀ (a : α) d, ext.toEnvExtension.idx < env.extensions.size →
      (ext.toEnvExtension.getState env).state = some d →
      (ext.toEnvExtension.getState (ext.addEntry env a)).state =
        some (ext.addEntryFn false d a)) := by
  constructor
  · have key : FoldInv ext (ext.toEnvExtension.getState env) := by
      induction hreach with
      | registered env c hc => rw [hc]; exact foldInv_registration ext c
      | pushImported env entries h ih =>
        rw [EnvExtension.getState_modifyState]
        split
        · exact foldInv_pushImported ext _ entries ih
        · exact ih
      | finalized env h ih =>
        rw [EnvExtension.getState_modifyState]
        split
        · exact foldInv_finalizeStep ext _
        · exact ih
      | addEntry env a h ih =>
        rw [PersistentEnvExtension.addEntry, EnvExtension.getState_modifyState]
        split
        · exact foldInv_addEntryStep ext a _ ih
        · exact ih
      | forceState env h ih =>
        rw [PersistentEnvExtension.forceState, EnvExtension.getState_modifyState]
        split
        · exact foldInv_forceStateStep ext _ ih
        · exact ih
    intro d hd
    rw [key d hd, ← List.foldl_reverse]
  · intro a d hidx hd
    rw [PersistentEnvExtension.addEntry, EnvExtension.getState_modifyState, if_pos hidx]
    simp [PersistentEnvExtension.addEntryStep, hd]

theorem persistentExt_cachedState_invariant_witness :
    (0 : Nat) + 5 =
      (((pextNat.toEnvExtension.getState (pextNat.addEntry envNat 5)).entries.reverse).foldl
        (fun t a => pextNat.addEntryFn false t a)
        (pextNat.toEnvExtension.getState (pextNat.addEntry envNat 5)).importedState.get) :=
  (persistentExt_cachedState_invariant pextNat (pextNat.addEntry envNat 5)
    (ReachEnv.addEntry envNat 5 (ReachEnv.registered envNat 0 rfl))).1 (0 + 5) rfl

/-! ### Tolerant lookups (import side) -/

theorem getEntriesFor_of_not_mem {α : Type} (mod : ModuleData α) (extId : Name)
    (hmod : ∀ p ∈ mod.entries.toList, p.1 ≠ extId) (i : Nat) :
    getEntriesFor mod extId i = #[] := by
  rw [getEntriesFor]
  split
  next h =>
    have hmem : mod.entries[i] ∈ mod.entries.toList := Array.getElem_mem_toList _ h
    have hne : (mod.entries[i].1 == extId) = false := by
      simpa using hmod _ hmem
    simp only [hne, Bool.false_eq_true, if_false]
    exact getEntriesFor_of_not_mem mod extId hmod (i + 1)
  next h => rfl
termination_by mod.entries.size - i
decreasing_by
  simp_wf
  omega

/-- C9: an out-of-range module index in `getModuleEntries` yields the empty
array rather than an error, and a module record with no entry section for a
given extension name contributes the empty array (`getEntriesFor` on no
match); both are total, error-free lookups. -/
theorem tolerant_entry_lookups {α σ : Type} (ext : PersistentEnvExtension α σ)
    (env : Environment (PersistentEnvExtensionState α σ)) (m : Nat)
    (hm : (ext.toEnvExtension.getState env).importedEntries.size ≤ m) :
    ext.getModuleEntries env m = #[] ∧
    (∀ (mod : ModuleData α) (extId : Name) (i : Nat),
      (∀ p ∈ mod.entries.toList, p.1 ≠ extId) → getEntriesFor mod extId i = #[]) := by
  constructor
  · have : ¬ m < (ext.toEnvExtension.getState env).importedEntries.size := by omega
    simp [PersistentEnvExtension.getModuleEntries, Array.getD, this]
  · intro mod extId i hmod
    exact getEntriesFor_of_not_mem mod extId hmod i

theorem tolerant_entry_lookups_witness :
    pextNat.getModuleEntries envNat 3 = #[] ∧
    (∀ (mod : ModuleData Nat) (extId : Name) (i : Nat),
      (∀ p ∈ mod.entries.toList, p.1 ≠ extId) → getEntriesFor mod extId i = #[]) :=
  tolerant_entry_lookups pextNat envNat 3 (by decide)

/-! ### The import walk -/

theorem NameSet.contains_iff (s : NameSet) (n : Name) : s.contains n = true ↔ n ∈ s := by
  simp [NameSet.contains, List.contains]

theorem importModulesAux_nil {α : Type} (read : Name → Except EnvError (ModuleData α))
    (fuel : Nat) (r : NameSet × Array (ModuleData α)) :
    importModulesAux read fuel [] r = some (Except.ok r) := by
  rcases r with ⟨s, mods⟩
  cases fuel <;> rfl

theorem importModulesAux_cons {α : Type} (read : Name → Except EnvError (ModuleData α))
    (fuel : Nat) (m : Name) (ms : List Name) (s : NameSet) (mods : Array (ModuleData α)) :
    importModulesAux read (fuel + 1) (m :: ms) (s, mods) =
      if s.contains m then
        importModulesAux read fuel ms (s, mods)
      else
        match read m with
        | Except.error e => some (Except.error e)
        | Except.ok mod =>
          match importModulesAux read fuel mod.imports.toList (NameSet.insert s m, mods) with
          | none => none
          | some (Except.error e) => some (Except.error e)
          | some (Except.ok (s1, mods1)) =>
            importModulesAux read fuel ms (s1, mods1.push mod) := rfl

theorem importModulesAux_ok_closed {α : Type} (read : Name → Except EnvError (ModuleData α)) :
    ∀ (fuel : Nat) (pending : List Name) (s : NameSet) (mods : Array (ModuleData α))
      (s' : NameSet) (mods' : Array (ModuleData α)),
      importModulesAux read fuel pending (s, mods) = some (Except.ok (s', mods')) →
      (∀ p ∈ pending, p ∈ s') ∧ (∀ x ∈ s, x ∈ s') ∧
      (∀ x, x ∈ s' →
        x ∈ s ∨ ∃ mod, read x = Except.ok mod ∧ ∀ i ∈ mod.imports.toList, i ∈ s') := by
  intro fuel
  induction fuel with
  | zero =>
    intro pending s mods s' mods' hrun
    cases pending with
    | nil =>
      rw [importModulesAux_nil] at hrun
      obtain ⟨h1, h2⟩ := Prod.mk.injEq .. ▸ Except.ok.inj (Option.some.inj hrun)
      subst h1
      exact ⟨by simp, fun x hx => hx, fun x hx => Or.inl hx⟩
    | cons m ms => cases hrun
  | succ fuel ih =>
    intro pending s mods s' mods' hrun
    cases pending with
    | nil =>
      rw [importModulesAux_nil] at hrun
      obtain ⟨h1, h2⟩ := Prod.mk.injEq .. ▸ Except.ok.inj (Option.some.inj hrun)
      subst h1
      exact ⟨by simp, fun x hx => hx, fun x hx => Or.inl hx⟩
    | cons m ms =>
      rw [importModulesAux_cons] at hrun
      by_cases hm : s.contains m
      · rw [if_pos hm] at hrun
        obtain ⟨c1, c2, c3⟩ := ih ms s mods s' mods' hrun
        have hmem : m ∈ s := (NameSet.contains_iff s m).1 hm
        refine ⟨?_, c2, c3⟩
        intro p hp
        rcases List.mem_cons.1 hp with rfl | hp
        · exact c2 p hmem
        · exact c1 p hp
      · rw [if_neg hm] at hrun
        split at hrun
        · simp at hrun
        next mod hread =>
          split at hrun
          · simp at hrun
          · simp at hrun
          next s1 mods1 hchild =>
            obtain ⟨d1, d2, d3⟩ := ih mod.imports.toList (NameSet.insert s m) mods s1 mods1
              hchild
            obtain ⟨e1, e2, e3⟩ := ih ms s1 (mods1.push mod) s' mods' hrun
            have hs1 : ∀ x ∈ s, x ∈ s1 := fun x hx =>
              d2 x (List.mem_cons_of_mem m hx)
            have hms1 : m ∈ s1 := d2 m (List.mem_cons_self m s)
            refine ⟨?_, ?_, ?_⟩
            · intro p hp
              rcases List.mem_cons.1 hp with rfl | hp
              · exact e2 p hms1
              · exact e1 p hp
            · intro x hx
              exact e2 x (hs1 x hx)
            · intro x hx
              rcases e3 x hx with hx1 | hok
              · rcases d3 x hx1 with hx2 | ⟨mod2, hmod2, himp2⟩
                · rcases List.mem_cons.1 hx2 with rfl | hx3
                  · exact Or.inr ⟨mod, hread, fun i hi => e2 i (d1 i hi)⟩
                  · exact Or.inl hx3
                · exact Or.inr ⟨mod2, hmod2, fun i hi => e2 i (himp2 i hi)⟩
              · exact Or.inr hok

theorem importModulesAux_error_source {α : Type} (read : Name → Except EnvError (ModuleData α))
    (C : Name → Prop)
    (hC : ∀ n mod, C n → read n = Except.ok mod → ∀ i ∈ mod.imports.toList, C i) :
    ∀ (fuel : Nat) (pending : List Name) (s : NameSet) (mods : Array (ModuleData α))
      (e : EnvError),
      importModulesAux read fuel pending (s, mods) = some (Except.error e) →
      (∀ p ∈ pending, C p) →
      ∃ n, C n ∧ read n = Except.error e := by
  intro fuel
  induction fuel with
  | zero =>
    intro pending s mods e hrun hp
    cases pending with
    | nil => rw [importModulesAux_nil] at hrun; simp at hrun
    | cons m ms => cases hrun
  | succ fuel ih =>
    intro pending s mods e hrun hp
    cases pending with
    | nil => rw [importModulesAux_nil] at hrun; simp at hrun
    | cons m ms =>
      rw [importModulesAux_cons] at hrun
      by_cases hm : s.contains m
      · rw [if_pos hm] at hrun
        exact ih ms s mods e hrun fun p hpm => hp p (List.mem_cons_of_mem m hpm)
      · rw [if_neg hm] at hrun
        have hCm : C m := hp m (List.mem_cons_self m ms)
        split at hrun
        next e2 hread =>
          obtain rfl : e2 = e := by simpa using hrun
          exact ⟨m, hCm, hread⟩
        next mod hread =>
          split at hrun
          · simp at hrun
          next e2 hchild =>
            obtain rfl : e = e2 := by simpa using hrun.symm
            exact ih mod.imports.toList (NameSet.insert s m) mods e hchild
              fun i hi => hC m mod hCm hread i hi
          next s1 mods1 hchild =>
            exact ih ms s1 (mods1.push mod) e hrun
              fun p hpm => hp p (List.mem_cons_of_mem m hpm)

theorem inClosure_of_aux_ok {α : Type} (read : Name → Except EnvError (ModuleData α))
    (roots : List Name) (fuel : Nat) (s' : NameSet) (mods' : Array (ModuleData α))
    (hrun : importModulesAux read fuel roots ([], #[]) = some (Except.ok (s', mods'))) :
    ∀ n, InClosure read roots n → n ∈ s' ∧ ∃ mod, read n = Except.ok mod := by
  obtain ⟨c1, c2, c3⟩ := importModulesAux_ok_closed read fuel roots [] #[] s' mods' hrun
  have hstep : ∀ n, n ∈ s' → ∃ mod, read n = Except.ok mod ∧ ∀ i ∈ mod.imports.toList, i ∈ s' := by
    intro n hn
    rcases c3 n hn with h | h
    · cases h
    · exact h
  intro n hn
  induction hn with
  | root n hr =>
    have hs : n ∈ s' := c1 n hr
    obtain ⟨mod, hmod, -⟩ := hstep n hs
    exact ⟨hs, mod, hmod⟩
  | step m n mod hm hread hi ih =>
    obtain ⟨hms', -⟩ := ih
    obtain ⟨mod2, hmod2, himp⟩ := hstep m hms'
    have hmodeq : mod2 = mod := by rw [hread] at hmod2; exact (Except.ok.inj hmod2).symm
    subst hmodeq
    have hn' : n ∈ s' := himp n hi
    obtain ⟨mod3, hmod3, -⟩ := hstep n hn'
    exact ⟨hn', mod3, hmod3⟩

/-- C6: if the resolver/deserializer fails on any module of the transitive
closure, `importModules` cannot return an environment; whenever it
returns a result at all, that result is the error produced by the failing
collaborator call on a closure member — there is no partially-imported
environment. -/
theorem importModules_error_propagation {α σ : Type}
    (read : Name → Except EnvError (ModuleData α))
    (perform : Environment (PersistentEnvExtensionState α σ) → ByteArray →
      Except EnvError (Environment (PersistentEnvExtensionState α σ)))
    (envExts : Array (EnvExtension (PersistentEnvExtensionState α σ)))
    (pExts : Array (PersistentEnvExtension α σ))
    (fuel : Nat) (roots : List Name) (trust : Nat) (n : Name) (e : EnvError)
    (hn : InClosure read roots n) (hfail : read n = Except.error e) :
    (∀ env, importModules read perform envExts pExts fuel roots trust ≠
      some (Except.ok env)) ∧
    (∀ r, importModules read perform envExts pExts fuel roots trust = some r →
      ∃ n' e', InClosure read roots n' ∧ read n' = Except.error e' ∧ r = Except.error e') := by
  have haux : ∀ s' mods',
      importModulesAux read fuel roots ([], #[]) ≠ some (Except.ok (s', mods')) := by
    intro s' mods' hrun
    obtain ⟨-, mod, hok⟩ := inClosure_of_aux_ok read roots fuel s' mods' hrun n hn
    rw [hfail] at hok
    cases hok
  constructor
  · intro env hcontra
    rw [importModules] at hcontra
    split at hcontra
    · cases hcontra
    · simp at hcontra
    next s' mods' haux2 => exact haux s' mods' haux2
  · intro r hr
    rw [importModules] at hr
    split at hr
    · cases hr
    next e2 haux2 =>
      obtain rfl : Except.error e2 = r := Option.some.inj hr
      obtain ⟨n', hCn', hread'⟩ := importModulesAux_error_source read (InClosure read roots)
        (fun a mod ha hread i hi => InClosure.step a i mod ha hread hi)
        fuel roots [] #[] e2 haux2 (fun p hp => InClosure.root p hp)
      exact ⟨n', e2, hCn', hread', rfl⟩
    next s' mods' haux2 => exact absurd haux2 (haux s' mods')

/-- A resolver/deserializer that fails on every module (on the root `B`
with a distinguishable error). -/
def readFailB : Name → Except EnvError (ModuleData Nat) :=
  fun n =>
    if n = "B" then Except.error (EnvError.ioError "corrupt")
    else Except.error (EnvError.ioError "not found")

/-- A trivial legacy-modification replay collaborator. -/
def performNat : Environment (PersistentEnvExtensionState Nat Nat) → ByteArray →
    Except EnvError (Environment (PersistentEnvExtensionState Nat Nat)) :=
  fun env _ => Except.ok env

theorem importModules_error_propagation_witness :
    importModules readFailB performNat #[] #[] 1 ["B"] 0 ≠
      some (Except.ok
        { const2ModIdx := HashMap.empty, constants := SMap.empty, extensions := #[] }) :=
  (importModules_error_propagation readFailB performNat #[] #[] 1 ["B"] 0 "B"
    (EnvError.ioError "corrupt") (InClosure.root "B" (by simp)) rfl).1 _

/-! ### Topological order of the import walk -/

/-- Module list `M` is topologically ordered along the name list `L`:
every import of the `k`-th module record appears among the first `k`
names. -/
def TopoOK {α : Type} (L : List Name) (M : List (ModuleData α)) : Prop :=
  ∀ k mod, M[k]? = some mod → ∀ i ∈ mod.imports.toList, i ∈ L.take k

theorem forall₂_append_pair {γ δ : Type} {r : γ → δ → Prop} {l1 u1 : List γ} {l2 u2 : List δ}
    (h1 : List.Forall₂ r l1 l2) (h2 : List.Forall₂ r u1 u2) :
    List.Forall₂ r (l1 ++ u1) (l2 ++ u2) := by
  induction h1 with
  | nil => simpa
  | cons hr h ih => exact List.Forall₂.cons hr ih

theorem forall₂_getElem? {γ δ : Type} {r : γ → δ → Prop} :
    ∀ {l1 : List γ} {l2 : List δ}, List.Forall₂ r l1 l2 →
      ∀ (k : Nat) (x : γ) (y : δ), l1[k]? = some x → l2[k]? = some y → r x y := by
  intro l1 l2 h
  induction h with
  | nil => intro k x y hx hy; simp at hx
  | cons hr h ih =>
    intro k x y hx hy
    cases k with
    | zero =>
      simp only [List.getElem?_cons_zero, Option.some.injEq] at hx hy
      subst hx; subst hy; exact hr
    | succ k =>
      simp only [List.getElem?_cons_succ] at hx hy
      exact ih k x y hx hy

theorem importModulesAux_main {α : Type} (read : Name → Except EnvError (ModuleData α))
    (rank : Name → Nat) (C : Name → Prop)
    (hrank : ∀ n mod, read n = Except.ok mod → ∀ i ∈ mod.imports.toList, rank i < rank n)
    (hC : ∀ n mod, C n → read n = Except.ok mod → ∀ i ∈ mod.imports.toList, C i) :
    ∀ (fuel : Nat) (pending : List Name) (s : NameSet) (mods : Array (ModuleData α))
      (Lacc R : List Name) (s' : NameSet) (mods' : Array (ModuleData α)),
      importModulesAux read fuel pending (s, mods) = some (Except.ok (s', mods')) →
      (∀ p ∈ pending, C p) →
      (∀ x, x ∈ s ↔ x ∈ Lacc ∨ x ∈ R) →
      (∀ x, x ∈ Lacc → x ∈ R → False) →
      Lacc.Nodup →
      (∀ r ∈ R, ∀ p ∈ pending, rank p < rank r) →
      List.Forall₂ (fun n mod => read n = Except.ok mod) Lacc mods.toList →
      TopoOK Lacc mods.toList →
      ∃ Lnew : List Name,
        (∀ x ∈ Lnew, C x ∧ x ∉ R) ∧
        (Lacc ++ Lnew).Nodup ∧
        List.Forall₂ (fun n mod => read n = Except.ok mod) (Lacc ++ Lnew) mods'.toList ∧
        TopoOK (Lacc ++ Lnew) mods'.toList ∧
        (∀ x, x ∈ s' ↔ x ∈ Lacc ++ Lnew ∨ x ∈ R) ∧
        (∀ p ∈ pending, p ∈ s') := by
  intro fuel
  induction fuel with
  | zero =>
    intro pending s mods Lacc R s' mods' hrun hp hsets hdisj hnodup hrankR hpairs htopo
    cases pending with
    | nil =>
      rw [importModulesAux_nil] at hrun
      obtain ⟨h1, h2⟩ := Prod.mk.injEq .. ▸ Except.ok.inj (Option.some.inj hrun)
      subst h1; subst h2
      exact ⟨[], by simp, by simpa, by simpa, by simpa, by simpa using hsets, by simp⟩
    | cons m ms => cases hrun
  | succ fuel ih =>
    intro pending s mods Lacc R s' mods' hrun hp hsets hdisj hnodup hrankR hpairs htopo
    cases pending with
    | nil =>
      rw [importModulesAux_nil] at hrun
      obtain ⟨h1, h2⟩ := Prod.mk.injEq .. ▸ Except.ok.inj (Option.some.inj hrun)
      subst h1; subst h2
      exact ⟨[], by simp, by simpa, by simpa, by simpa, by simpa using hsets, by simp⟩
    | cons m ms =>
      rw [importModulesAux_cons] at hrun
      by_cases hm : s.contains m
      · rw [if_pos hm] at hrun
        have hmem : m ∈ s := (NameSet.contains_iff s m).1 hm
        obtain ⟨Lnew, c1, c2, c3, c4, c5, c6⟩ := ih ms s mods Lacc R s' mods' hrun
          (fun p hpm => hp p (List.mem_cons_of_mem m hpm)) hsets hdisj hnodup
          (fun r hr p hpm => hrankR r hr p (List.mem_cons_of_mem m hpm)) hpairs htopo
        refine ⟨Lnew, c1, c2, c3, c4, c5, ?_⟩
        intro p hpm
        rcases List.mem_cons.1 hpm with rfl | hpm
        · refine (c5 p).2 ?_
          rcases (hsets p).1 hmem with h | h
          · exact Or.inl (List.mem_append_left _ h)
          · exact Or.inr h
        · exact c6 p hpm
      · rw [if_neg hm] at hrun
        have hnotmem : m ∉ s := fun h => hm ((NameSet.contains_iff s m).2 h)
        have hmnotLacc : m ∉ Lacc := fun h => hnotmem ((hsets m).2 (Or.inl h))
        have hmnotR : m ∉ R := fun h => hnotmem ((hsets m).2 (Or.inr h))
        have hCm : C m := hp m (List.mem_cons_self m ms)
        split at hrun
        · simp at hrun
        next mod hread =>
          split at hrun
          · simp at hrun
          · simp at hrun
          next s1 mods1 hchild =>
            obtain ⟨L1, d1, d2, d3, d4, d5, d6⟩ :=
              ih mod.imports.toList (NameSet.insert s m) mods Lacc (m :: R) s1 mods1 hchild
                (fun i hi => hC m mod hCm hread i hi)
                (by
                  intro x
                  constructor
                  · intro hx
                    rcases List.mem_cons.1 hx with rfl | hx
                    · exact Or.inr (List.mem_cons_self x R)
                    · rcases (hsets x).1 hx with h | h
                      · exact Or.inl h
                      · exact Or.inr (List.mem_cons_of_mem m h)
                  · intro hx
                    rcases hx with h | h
                    · exact List.mem_cons_of_mem m ((hsets x).2 (Or.inl h))
                    · rcases List.mem_cons.1 h with rfl | h
                      · exact List.mem_cons_self x s
                      · exact List.mem_cons_of_mem m ((hsets x).2 (Or.inr h)))
                (by
                  intro x hxL hxR
                  rcases List.mem_cons.1 hxR with rfl | hxR
                  · exact hmnotLacc hxL
                  · exact hdisj x hxL hxR)
                hnodup
                (by
                  intro r hr p hpm
                  rcases List.mem_cons.1 hr with hrm | hr
                  · rw [hrm]
                    exact hrank m mod hread p hpm
                  · exact lt_trans (hrank m mod hread p hpm)
                      (hrankR r hr m (List.mem_cons_self m ms)))
                hpairs htopo
            have hm_s1 : m ∈ s1 := (d5 m).2 (Or.inr (List.mem_cons_self m R))
            have hmnotL1 : m ∉ L1 := fun h => (d1 m h).2 (List.mem_cons_self m R)
            have hmnotLaccL1 : m ∉ Lacc ++ L1 := by
              intro h
              rcases List.mem_append.1 h with h | h
              · exact hmnotLacc h
              · exact hmnotL1 h
            have hlen1 : (Lacc ++ L1).length = mods1.toList.length := d3.length_eq
            obtain ⟨L3, e1, e2, e3, e4, e5, e6⟩ :=
              ih ms s1 (mods1.push mod) ((Lacc ++ L1) ++ [m]) R s' mods' hrun
                (fun p hpm => hp p (List.mem_cons_of_mem m hpm))
                (by
                  intro x
                  rw [d5 x]
                  simp only [List.mem_append, List.mem_cons, List.mem_singleton,
                    List.not_mem_nil, or_false]
                  tauto)
                (by
                  intro x hxL hxR
                  rcases List.mem_append.1 hxL with h | h
                  · rcases List.mem_append.1 h with h | h
                    · exact hdisj x h hxR
                    · exact (d1 x h).2 (List.mem_cons_of_mem m hxR)
                  · rcases List.mem_singleton.1 h with rfl
                    exact hmnotR hxR)
                (by
                  rw [List.nodup_append]
                  refine ⟨d2, List.nodup_singleton m, ?_⟩
                  intro x hx hx2
                  rcases List.mem_singleton.1 hx2 with rfl
                  exact hmnotLaccL1 hx)
                (fun r hr p hpm => hrankR r hr p (List.mem_cons_of_mem m hpm))
                (by
                  rw [Array.push_toList]
                  exact forall₂_append_pair d3
                    (List.Forall₂.cons hread List.Forall₂.nil))
                (by
                  rw [Array.push_toList]
                  intro k mod2 hk i hi
                  by_cases hkl : k < mods1.toList.length
                  · rw [List.getElem?_append, if_pos hkl] at hk
                    have := d4 k mod2 hk i hi
                    rwa [List.take_append_of_le_length (by omega)]
                  · rw [List.getElem?_append, if_neg hkl] at hk
                    cases hj : k - mods1.toList.length with
                    | zero =>
                      have hkeq : k = mods1.toList.length := by omega
                      rw [hj] at hk
                      have hmodeq : mod2 = mod := by simpa using hk.symm
                      rw [hmodeq] at hi
                      subst hkeq
                      rw [← hlen1, List.take_left]
                      have hi_s1 : i ∈ s1 := d6 i hi
                      rcases (d5 i).1 hi_s1 with h | h
                      · exact h
                      · exfalso
                        rcases List.mem_cons.1 h with him | h
                        · rw [him] at hi
                          exact lt_irrefl _ (hrank m mod hread m hi)
                        · exact lt_asymm (hrank m mod hread i hi)
                            (hrankR i h m (List.mem_cons_self m ms))
                    | succ n =>
                      rw [hj] at hk
                      simp at hk)
            have hsub1 : ∀ x ∈ s1, x ∈ s' := by
              intro x hx
              refine (e5 x).2 ?_
              rcases (d5 x).1 hx with h | h
              · exact Or.inl (List.mem_append_left _ (List.mem_append_left _ h))
              · rcases List.mem_cons.1 h with rfl | h
                · exact Or.inl (List.mem_append_left _
                    (List.mem_append_right _ (List.mem_singleton.2 rfl)))
                · exact Or.inr h
            have hLrw : Lacc ++ (L1 ++ m :: L3) = ((Lacc ++ L1) ++ [m]) ++ L3 := by
              simp
            refine ⟨L1 ++ m :: L3, ?_, ?_, ?_, ?_, ?_, ?_⟩
            · intro x hx
              rcases List.mem_append.1 hx with h | h
              · exact ⟨(d1 x h).1, fun h2 => (d1 x h).2 (List.mem_cons_of_mem m h2)⟩
              · rcases List.mem_cons.1 h with rfl | h
                · exact ⟨hCm, hmnotR⟩
                · exact e1 x h
            · rw [hLrw]; exact e2
            · rw [hLrw]; exact e3
            · rw [hLrw]; exact e4
            · intro x
              rw [hLrw]
              exact e5 x
            · intro p hpm
              rcases List.mem_cons.1 hpm with rfl | hpm
              · exact hsub1 p hm_s1
              · exact e6 p hpm

/-- C2: a successful run of the import walk over an acyclic import graph
(witnessed by a rank function decreasing along import edges) visits every
module of the transitive closure exactly once — the accumulated records are
indexed by a duplicate-free name list whose members are exactly the
transitive closure of the roots — and the output is a topological order:
every import of a module record appears in the list strictly before the
record itself. -/
theorem importModulesAux_topological {α : Type} (read : Name → Except EnvError (ModuleData α))
    (rank : Name → Nat)
    (hrank : ∀ n mod, read n = Except.ok mod → ∀ i ∈ mod.imports.toList, rank i < rank n)
    (fuel : Nat) (roots : List Name) (s' : NameSet) (mods' : Array (ModuleData α))
    (hrun : importModulesAux read fuel roots ([], #[]) = some (Except.ok (s', mods'))) :
    ∃ L : List Name,
      L.Nodup ∧
      List.Forall₂ (fun n mod => read n = Except.ok mod) L mods'.toList ∧
      (∀ n, n ∈ L ↔ InClosure read roots n) ∧
      TopoOK L mods'.toList := by
  obtain ⟨L, c1, c2, c3, c4, c5, c6⟩ :=
    importModulesAux_main read rank (InClosure read roots) hrank
      (fun n mod hn hread i hi => InClosure.step n i mod hn hread hi)
      fuel roots [] #[] [] [] s' mods' hrun
      (fun p hp => InClosure.root p hp)
      (by simp)
      (by simp)
      (by simp)
      (by simp)
      (by exact List.Forall₂.nil)
      (by intro k mod hk; simp at hk)
  simp only [List.nil_append] at c2 c3 c4
  simp only [List.nil_append, List.not_mem_nil, or_false] at c5
  refine ⟨L, c2, c3, ?_, c4⟩
  intro n
  constructor
  · intro hn
    exact (c1 n hn).1
  · intro hn
    induction hn with
    | root p hp => exact (c5 p).1 (c6 p hp)
    | step m n mod hm hread hi ih =>
      obtain ⟨k, hk⟩ := List.getElem?_of_mem ih
      have hklen : k < L.length := by
        obtain ⟨h, -⟩ := List.getElem?_eq_some.1 hk
        exact h
      have hlen : L.length = mods'.toList.length := c3.length_eq
      have hklen2 : k < mods'.toList.length := by omega
      have hk2 : mods'.toList[k]? = some (mods'.toList.get ⟨k, hklen2⟩) :=
        List.getElem?_eq_getElem hklen2
      have hr := forall₂_getElem? c3 k m _ hk hk2
      have hmodeq : mods'.toList.get ⟨k, hklen2⟩ = mod := by
        rw [hread] at hr
        exact (Except.ok.inj hr).symm
      have htk := c4 k _ hk2 n (by rw [hmodeq]; exact hi)
      exact List.take_subset k L htk

/-- A concrete two-module world: `A` imports nothing, `B` imports `A`. -/
def modA : ModuleData Nat :=
  { imports := #[], constants := #[], entries := #[], serialized := ByteArray.empty }

def modB : ModuleData Nat :=
  { imports := #["A"], constants := #[], entries := #[], serialized := ByteArray.empty }

def readAB : Name → Except EnvError (ModuleData Nat) :=
  fun n =>
    if n = "A" then Except.ok modA
    else if n = "B" then Except.ok modB
    else Except.error (EnvError.ioError "not found")

def rankAB : Name → Nat := fun n => if n = "B" then 1 else 0

theorem importModulesAux_topological_witness :
    ∃ L : List Name,
      L.Nodup ∧
      List.Forall₂ (fun n mod => readAB n = Except.ok mod) L
        (#[modA, modB] : Array (ModuleData Nat)).toList ∧
      (∀ n, n ∈ L ↔ InClosure readAB ["B"] n) ∧
      TopoOK L (#[modA, modB] : Array (ModuleData Nat)).toList :=
  importModulesAux_topological readAB rankAB
    (by
      intro n mod h i hi
      simp only [readAB] at h
      split_ifs at h with h1 h2
      · obtain rfl : modA = mod := Except.ok.inj h
        simp [modA] at hi
      · obtain rfl : modB = mod := Except.ok.inj h
        subst h2
        simp [modB] at hi
        subst hi
        decide)
    3 ["B"] ["A", "B"] #[modA, modB] rfl

end LeanEnv
